import Mathlib

/-!
Verification of the commit-graph lane/color layout algorithm
(`computeGraph` in `src/server.ts` of the git-viewer repository).

The algorithm is embedded shallowly: the mutable lane table, the
sha-to-lane / sha-to-color maps and the pre-assignment set become an
explicit `GraphState` record threaded through a fold over the input
commit list.  JavaScript `Map.get`/`Map.set` become association-list
lookup and cons (lookups observe the most recent binding, exactly like
the overwriting `Map.set`); `Array.findIndex(l => l === null)` becomes
`freeIdx`; `lanes[i] = v` becomes `setLane`.  All definitions are
executable so that concrete inputs evaluate by `decide` / `rfl`.
-/

namespace GitViewer

/-- Input record: commit identifier plus ordered parent identifiers
(`parents[0]` is the first parent). -/
structure CommitRecord where
  sha : String
  parents : List String
deriving Repr, DecidableEq

/-- One line segment of a row: `{ from, to, color }` in the source. -/
structure GraphLine where
  fromLane : Nat
  toLane : Nat
  color : Nat
deriving Repr, DecidableEq

/-- Output per commit: `{ lane, color, isFirstInLane, lines }`. -/
structure GraphNode where
  lane : Nat
  color : Nat
  isFirstInLane : Bool
  lines : List GraphLine
deriving Repr, DecidableEq

/-- The mutable state of one layout pass of `computeGraph`. -/
structure GraphState where
  lanes : List (Option String)
  shaToLane : List (String × Nat)
  shaToColor : List (String × Nat)
  shaAssignedByParent : List String
  colorIndex : Nat
  maxLane : Nat
deriving Repr, DecidableEq

/-- State at the top of `computeGraph`: empty tables, counters at 0. -/
def initialState : GraphState := ⟨[], [], [], [], 0, 0⟩

/-- `graphColors = [0, 1, 2, 3, 4, 5, 6, 7]` from the source. -/
def graphColors : List Nat := [0, 1, 2, 3, 4, 5, 6, 7]

/-- `graphColors[i % graphColors.length]`. -/
def paletteColor (i : Nat) : Nat := graphColors.getD (i % graphColors.length) 0

/-- Association-list lookup, modelling `Map.get` (most recent binding wins,
`none` when absent). -/
def lookupSha : List (String × Nat) → String → Option Nat
  | [], _ => none
  | (k, v) :: rest, s => if s = k then some v else lookupSha rest s

/-- Set membership, modelling `Set.has`. -/
def hasSha : List String → String → Bool
  | [], _ => false
  | x :: rest, s => if s = x then true else hasSha rest s

/-- `lanes[i]` with `none` for a free slot; out of range also reads `none`. -/
def getLane : List (Option String) → Nat → Option String
  | [], _ => none
  | x :: _, 0 => x
  | _ :: rest, n + 1 => getLane rest n

/-- In-bounds update `lanes[i] = v` (out of range is a no-op; the
algorithm only ever writes in bounds). -/
def setLane : List (Option String) → Nat → Option String → List (Option String)
  | [], _, _ => []
  | _ :: rest, 0, v => v :: rest
  | x :: rest, n + 1, v => x :: setLane rest n v

/-- `lanes.findIndex(l => l === null)`, returning `lanes.length` when no
slot is free (the source gets `-1` and then uses `lanes.length`). -/
def freeIdx : List (Option String) → Nat
  | [] => 0
  | none :: _ => 0
  | some _ :: rest => freeIdx rest + 1

/-- The duplicated free-slot search of the source: first free slot, or
append one (`lanes.push(null)`) when none is free.  Returns the chosen
index and the (possibly extended) lane table. -/
def findFreeLane (lanes : List (Option String)) : Nat × List (Option String) :=
  if freeIdx lanes < lanes.length then (freeIdx lanes, lanes)
  else (lanes.length, lanes ++ [none])

/-- The pass-through loop: for every occupied lane other than the
commit's own, emit a straight segment in that lane's color.  The second
`Nat` argument is the index of the head of the remaining lane list. -/
def passLinesAux (shaToColor : List (String × Nat)) (lane : Nat) :
    List (Option String) → Nat → List GraphLine
  | [], _ => []
  | none :: rest, i => passLinesAux shaToColor lane rest (i + 1)
  | some owner :: rest, i =>
    if i = lane then passLinesAux shaToColor lane rest (i + 1)
    else ⟨i, i, (lookupSha shaToColor owner).getD 0⟩ ::
      passLinesAux shaToColor lane rest (i + 1)

/-- All pass-through lines of one row. -/
def passLines (lanes : List (Option String)) (shaToColor : List (String × Nat))
    (lane : Nat) : List GraphLine :=
  passLinesAux shaToColor lane lanes 0

/-- Resolve the commit's own lane: a pre-assigned lane is used as is;
otherwise the first free slot is taken and the commit gets a fresh
palette color.  Returns lane, `isFirstInLane`, updated state. -/
def resolveLane (st : GraphState) (sha : String) : Nat × Bool × GraphState :=
  match lookupSha st.shaToLane sha with
  | some lane => (lane, !(hasSha st.shaAssignedByParent sha), st)
  | none =>
    let alloc := findFreeLane st.lanes
    (alloc.1, true,
      { st with
          lanes := alloc.2,
          shaToLane := (sha, alloc.1) :: st.shaToLane,
          shaToColor := (sha, paletteColor st.colorIndex) :: st.shaToColor,
          colorIndex := st.colorIndex + 1 })

/-- Handling of the sole parent of a single-parent commit, and of the
first parent of a merge (the source duplicates this code verbatim in
both branches): convergence line and lane freed when the parent already
has a lane, otherwise the parent inherits lane and color. -/
def processFirstParent (lane color : Nat) (st : GraphState) (p : String) :
    GraphState × GraphLine :=
  match lookupSha st.shaToLane p with
  | some existingParentLane =>
    ({ st with lanes := setLane st.lanes lane none },
      ⟨lane, existingParentLane, color⟩)
  | none =>
    ({ st with
        shaToLane := (p, lane) :: st.shaToLane,
        shaToColor := (p, color) :: st.shaToColor,
        shaAssignedByParent := p :: st.shaAssignedByParent,
        lanes := setLane st.lanes lane (some p) },
      ⟨lane, lane, color⟩)

/-- Allocation of a fresh lane and color for an unseen merge parent:
free slot (or appended slot) set to `p`, both maps and the pre-assigned
set extended, color counter advanced, `maxLane` updated. -/
def allocParent (st : GraphState) (p : String) : GraphState :=
  { st with
      lanes := setLane (findFreeLane st.lanes).2 (findFreeLane st.lanes).1 (some p),
      shaToLane := (p, (findFreeLane st.lanes).1) :: st.shaToLane,
      shaToColor := (p, paletteColor st.colorIndex) :: st.shaToColor,
      shaAssignedByParent := p :: st.shaAssignedByParent,
      colorIndex := st.colorIndex + 1,
      maxLane := max st.maxLane (findFreeLane st.lanes).1 }

/-- The `for (let i = 1; i < parents.length; i++)` loop of the merge
branch: a parent that already has a lane yields a convergence line in
that parent's color; an unseen parent is allocated a fresh lane and
color via `allocParent` and connected with a line in the new color. -/
def processOtherParents (lane : Nat) (st : GraphState) :
    List String → GraphState × List GraphLine
  | [] => (st, [])
  | p :: rest =>
    match lookupSha st.shaToLane p with
    | some parentLane =>
      let res := processOtherParents lane st rest
      (res.1, ⟨lane, parentLane, (lookupSha st.shaToColor p).getD 0⟩ :: res.2)
    | none =>
      let res := processOtherParents lane (allocParent st p) rest
      (res.1, ⟨lane, (findFreeLane st.lanes).1, paletteColor st.colorIndex⟩ :: res.2)

/-- Steps 1–2 of the per-commit algorithm: resolve the commit's lane,
then occupy it (`lanes[lane] = sha; maxLane = Math.max(maxLane, lane)`). -/
def occupyLane (st : GraphState) (sha : String) : Nat × Bool × GraphState :=
  let r := resolveLane st sha
  (r.1, r.2.1,
    { r.2.2 with
        lanes := setLane r.2.2.lanes r.1 (some sha),
        maxLane := max r.2.2.maxLane r.1 })

/-- One iteration of the main `for (let raw of rawCommits)` loop. -/
def processCommit (st : GraphState) (raw : CommitRecord) : GraphState × GraphNode :=
  let r := occupyLane st raw.sha
  let lane := r.1
  let isFirstInLane := r.2.1
  let st2 := r.2.2
  let color := (lookupSha st2.shaToColor raw.sha).getD 0
  let pass := passLines st2.lanes st2.shaToColor lane
  match raw.parents with
  | [] =>
    ({ st2 with lanes := setLane st2.lanes lane none },
      { lane := lane, color := color, isFirstInLane := isFirstInLane, lines := pass })
  | p :: rest =>
    let fp := processFirstParent lane color st2 p
    let op := processOtherParents lane fp.1 rest
    (op.1,
      { lane := lane, color := color, isFirstInLane := isFirstInLane,
        lines := pass ++ fp.2 :: op.2 })

/-- The whole pass from an arbitrary state, returning the final state and
the output nodes in input order. -/
def runFrom (st : GraphState) : List CommitRecord → GraphState × List GraphNode
  | [] => (st, [])
  | c :: rest =>
    let pc := processCommit st c
    let rs := runFrom pc.1 rest
    (rs.1, pc.2 :: rs.2)

/-- A full layout pass from the initial state. -/
def runPass (cs : List CommitRecord) : GraphState × List GraphNode :=
  runFrom initialState cs

/-- The result of `computeGraph`: nodes aligned 1:1 with the input, plus
the final `maxLane`. -/
structure GraphResult where
  commits : List GraphNode
  maxLane : Nat
deriving Repr, DecidableEq

/-- `computeGraph` itself. -/
def computeGraph (cs : List CommitRecord) : GraphResult :=
  ⟨(runPass cs).2, (runPass cs).1.maxLane⟩


/-! ### Concrete inputs and states used by test-vector claims and witnesses -/

/-- The straight chain A→B→C→D of the single-parent-chain property. -/
def chainABCD : List CommitRecord :=
  [⟨"A", ["B"]⟩, ⟨"B", ["C"]⟩, ⟨"C", ["D"]⟩, ⟨"D", []⟩]

/-- Truncated history: `Z` is named as a parent of `A` but never appears
as a commit; `B` is an unrelated root processed afterwards. -/
def truncatedInput : List CommitRecord := [⟨"A", ["Z"]⟩, ⟨"B", []⟩]

/-- State after one octopus merge row `A → [P, Q, Y]`: `Y` sits in lane 2. -/
def c1State : GraphState := (runPass [⟨"A", ["P", "Q", "Y"]⟩]).1

/-- Both assignment maps are populated in lock-step: an identifier with
no lane assignment has no color assignment either.  Holds in every
reachable state of a pass. -/
def DomInv (st : GraphState) : Prop :=
  ∀ s, lookupSha st.shaToLane s = none → lookupSha st.shaToColor s = none

/-- Both assignment maps of `st'` extend those of `st` without changing
any existing binding (first-write-wins). -/
def Stable (st st' : GraphState) : Prop :=
  (∀ s l, lookupSha st.shaToLane s = some l → lookupSha st'.shaToLane s = some l) ∧
  (∀ s c, lookupSha st.shaToColor s = some c → lookupSha st'.shaToColor s = some c)

/-- The lane table is consistent with the lane map: a slot occupied by
`s` is exactly the lane recorded for `s`.  This forces the live entries
of the table to be pairwise distinct. -/
def LaneInv (st : GraphState) : Prop :=
  ∀ i s, getLane st.lanes i = some s → lookupSha st.shaToLane s = some i

/-- One row pre-assigning `P` to lane 0 (with color 0). -/
def c4Pre : List CommitRecord := [⟨"A", ["P"]⟩]

/-- A later merge row whose second parent references `P` again. -/
def c4Cs : List CommitRecord := [⟨"B", ["W", "P"]⟩]

/-- State after `M → [P, Q]` then root `P`: lane 0 was freed at row 1
while lane 1 is still occupied by `Q`. -/
def c5State : GraphState := (runPass [⟨"M", ["P", "Q"]⟩, ⟨"P", []⟩]).1

/-- Every occupied lane index is bounded by the running `maxLane`. -/
def OccBound (st : GraphState) : Prop :=
  ∀ i s, getLane st.lanes i = some s → i ≤ st.maxLane

/-- Every lane recorded in the assignment map is bounded by `maxLane`. -/
def MapBound (st : GraphState) : Prop :=
  ∀ s l, lookupSha st.shaToLane s = some l → l ≤ st.maxLane

/-- Highest occupied index of a lane table, `none` when fully free. -/
def maxOcc? : List (Option String) → Option Nat
  | [] => none
  | x :: rest =>
    match maxOcc? rest with
    | some m => some (m + 1)
    | none => if x.isSome then some 0 else none

/-- Highest occupied index, defaulting to 0 for a fully free table. -/
def maxOccD (lanes : List (Option String)) : Nat := (maxOcc? lanes).getD 0

/-- Specification-side quantity for the `maxLane` claim: the highest lane
index ever marked occupied while processing the commits from state `st` —
per row, the commit's own (transiently or durably) occupied lane together
with every index still occupied after the row. -/
def everMaxFrom (st : GraphState) : List CommitRecord → Nat
  | [] => 0
  | c :: rest =>
    max (max (processCommit st c).2.lane (maxOccD ((processCommit st c).1).lanes))
      (everMaxFrom (processCommit st c).1 rest)

/-! ### Basic lemmas about the association maps and the lane table -/

theorem lookupSha_cons (k : String) (v : Nat) (m : List (String × Nat)) (s : String) :
    lookupSha ((k, v) :: m) s = if s = k then some v else lookupSha m s := rfl

theorem lookupSha_stable {m : List (String × Nat)} {k s : String} {l : Nat}
    (hk : lookupSha m k = none) (hs : lookupSha m s = some l) (v : Nat) :
    lookupSha ((k, v) :: m) s = some l := by
  have hne : s ≠ k := by
    rintro rfl
    rw [hk] at hs
    exact Option.noConfusion hs
  simp [lookupSha_cons, hne, hs]

theorem length_setLane (l : List (Option String)) (n : Nat) (v : Option String) :
    (setLane l n v).length = l.length := by
  induction l generalizing n with
  | nil => rfl
  | cons x rest ih =>
    cases n with
    | zero => rfl
    | succ n => simpa [setLane] using ih n

theorem getLane_setLane_self {l : List (Option String)} {n : Nat} (v : Option String)
    (h : n < l.length) : getLane (setLane l n v) n = v := by
  induction l generalizing n with
  | nil => simp at h
  | cons x rest ih =>
    cases n with
    | zero => rfl
    | succ n => exact ih (by simpa using h)

theorem getLane_setLane_ne {m n : Nat} (l : List (Option String)) (v : Option String)
    (h : m ≠ n) : getLane (setLane l n v) m = getLane l m := by
  induction l generalizing m n with
  | nil => rfl
  | cons x rest ih =>
    cases n with
    | zero =>
      cases m with
      | zero => exact absurd rfl h
      | succ m => rfl
    | succ n =>
      cases m with
      | zero => rfl
      | succ m => exact ih (fun hc => h (by simpa using hc))

theorem getLane_oob {l : List (Option String)} {j : Nat} (h : l.length ≤ j) :
    getLane l j = none := by
  induction l generalizing j with
  | nil => rfl
  | cons x rest ih =>
    cases j with
    | zero => simp at h
    | succ j => exact ih (by simpa using h)

theorem getLane_append_none (l : List (Option String)) (j : Nat) :
    getLane (l ++ [none]) j = getLane l j := by
  induction l generalizing j with
  | nil =>
    cases j with
    | zero => rfl
    | succ j => cases j <;> rfl
  | cons x rest ih =>
    cases j with
    | zero => rfl
    | succ j => exact ih j

theorem getLane_some_lt {l : List (Option String)} {j : Nat} {s : String}
    (h : getLane l j = some s) : j < l.length := by
  by_contra hc
  rw [getLane_oob (Nat.le_of_not_lt hc)] at h
  exact Option.noConfusion h

theorem freeIdx_le (l : List (Option String)) : freeIdx l ≤ l.length := by
  induction l with
  | nil => exact Nat.le_refl 0
  | cons x rest ih =>
    cases x with
    | none => exact Nat.zero_le _
    | some s => simpa [freeIdx] using Nat.succ_le_succ ih

theorem getLane_of_lt_freeIdx {l : List (Option String)} {j : Nat}
    (h : j < freeIdx l) : ∃ s, getLane l j = some s := by
  induction l generalizing j with
  | nil => simp [freeIdx] at h
  | cons x rest ih =>
    cases x with
    | none => simp [freeIdx] at h
    | some s =>
      cases j with
      | zero => exact ⟨s, rfl⟩
      | succ j => exact ih (Nat.lt_of_succ_lt_succ (by simpa [freeIdx] using h))

theorem getLane_freeIdx {l : List (Option String)} (h : freeIdx l < l.length) :
    getLane l (freeIdx l) = none := by
  induction l with
  | nil => simp at h
  | cons x rest ih =>
    cases x with
    | none => rfl
    | some s => exact ih (Nat.lt_of_succ_lt_succ (by simpa [freeIdx] using h))

theorem findFreeLane_getLane (l : List (Option String)) (j : Nat) :
    getLane (findFreeLane l).2 j = getLane l j := by
  unfold findFreeLane
  split
  · rfl
  · exact getLane_append_none l j

theorem findFreeLane_lt (l : List (Option String)) :
    (findFreeLane l).1 < (findFreeLane l).2.length := by
  unfold findFreeLane
  split
  · assumption
  · simp

theorem findFreeLane_free (l : List (Option String)) :
    getLane l (findFreeLane l).1 = none := by
  unfold findFreeLane
  split
  · exact getLane_freeIdx (by assumption)
  · exact getLane_oob (Nat.le_refl _)

theorem findFreeLane_length_le (l : List (Option String)) :
    l.length ≤ (findFreeLane l).2.length := by
  unfold findFreeLane
  split
  · exact Nat.le_refl _
  · simp


/-! ### Alignment of output with input -/

theorem runFrom_length (st : GraphState) (cs : List CommitRecord) :
    ((runFrom st cs).2).length = cs.length := by
  induction cs generalizing st with
  | nil => rfl
  | cons c rest ih => simp [runFrom, ih]

theorem computeGraph_length (cs : List CommitRecord) :
    ((computeGraph cs).commits).length = cs.length := by
  simpa [computeGraph, runPass] using runFrom_length initialState cs

/-- C2: on the input A→B→C→D (each commit's sole parent the next, D a
root), every commit lands in lane 0 with A's color 0, `isFirstInLane` is
true exactly for A, each of A, B, C emits exactly the one line
`{0, 0, colorA}`, the root D emits no lines, and `maxLane = 0`. -/
theorem claim_C2_single_parent_chain :
    computeGraph chainABCD =
      ⟨[⟨0, 0, true, [⟨0, 0, 0⟩]⟩, ⟨0, 0, false, [⟨0, 0, 0⟩]⟩,
        ⟨0, 0, false, [⟨0, 0, 0⟩]⟩, ⟨0, 0, false, []⟩], 0⟩ := by decide

/-- C8: `computeGraph` is deterministic — two runs on the same input
sequence produce identical output (nodes and `maxLane`). -/
theorem claim_C8_deterministic (cs1 cs2 : List CommitRecord) (h : cs1 = cs2) :
    computeGraph cs1 = computeGraph cs2 := by rw [h]

/-- Witness for C8 at the concrete chain input. -/
theorem claim_C8_witness :
    chainABCD = chainABCD ∧ computeGraph chainABCD = computeGraph chainABCD :=
  ⟨rfl, claim_C8_deterministic chainABCD chainABCD rfl⟩

/-- C9: `computeGraph` is total — it is a Lean function defined on every
finite list of `CommitRecord`, its output is aligned 1:1 with the input,
and on the empty input it returns the empty node list with `maxLane = 0`. -/
theorem claim_C9_total_empty :
    (∀ cs : List CommitRecord, ((computeGraph cs).commits).length = cs.length) ∧
    computeGraph [] = ⟨[], 0⟩ :=
  ⟨computeGraph_length, rfl⟩

/-- C3 counterexample: in `truncatedInput` the identifier `Z` is named as
a parent and never appears as a commit, yet the pass does NOT satisfy
"no line beyond the last commit that referenced it and no dangling lane
allocation at the end": the final lane table still holds `Z` in lane 0,
and the row of `B` (after the last reference to `Z`) draws a pass-through
line touching lane 0, `Z`'s lane. -/
theorem claim_C3_counterexample :
    ((∃ c ∈ truncatedInput, "Z" ∈ c.parents) ∧ ∀ c ∈ truncatedInput, c.sha ≠ "Z") ∧
    ¬ ((((runPass truncatedInput).1.lanes.all Option.isNone) = true) ∧
       ∀ gl ∈ ((runPass truncatedInput).2.getD 1 ⟨0, 0, false, []⟩).lines,
         gl.fromLane ≠ 0 ∧ gl.toLane ≠ 0) := by decide

/-- C3 amended: for every input — in particular one containing a parent
identifier that never appears as a commit — layout produces an output
node for every input commit (no failure); but a missing parent's lane
need not be released and no line is guaranteed to stop at the
truncation point: at `truncatedInput` (where `Z` is named as a parent
and never appears as a commit) the pre-assigned lane 0 is still
allocated to `Z` when the pass ends, and row `B`, after the last
reference to `Z`, draws the pass-through line `{0, 0, colorZ}` in `Z`'s
lane. -/
theorem claim_C3_amended :
    (∀ cs : List CommitRecord, ((computeGraph cs).commits).length = cs.length) ∧
    ((∃ c ∈ truncatedInput, "Z" ∈ c.parents) ∧ ∀ c ∈ truncatedInput, c.sha ≠ "Z") ∧
    (runPass truncatedInput).1.lanes = [some "Z", none] ∧
    ((runPass truncatedInput).2.getD 1 ⟨0, 0, false, []⟩).lines = [⟨0, 0, 0⟩] :=
  ⟨computeGraph_length, by decide, by decide, by decide⟩

theorem lookupSha_cons_self (k : String) (v : Nat) (m : List (String × Nat)) :
    lookupSha ((k, v) :: m) k = some v := by simp [lookupSha_cons]

theorem lookupSha_cons_ne {s k : String} (h : s ≠ k) (v : Nat) (m : List (String × Nat)) :
    lookupSha ((k, v) :: m) s = lookupSha m s := by simp [lookupSha_cons, h]

/-- C1: processing a merge commit `M` with parents `[X, Y]` where `X` has
no lane assignment yet and `Y` already occupies lane 2 (the lane map
sends `Y` to 2), the output node's line list ends with a line from `M`'s
lane to the lane `X` receives, followed by a separate convergence line
`{from: M.lane, to: 2, color: Y's color}` — colored by the target parent
`Y`, not by `M`. -/
theorem claim_C1_merge_convergence (st : GraphState) (m x y : String)
    (hx : lookupSha st.shaToLane x = none)
    (hy : lookupSha st.shaToLane y = some 2) :
    ∃ lx cx pre,
      lookupSha ((processCommit st ⟨m, [x, y]⟩).1).shaToLane x = some lx ∧
      (processCommit st ⟨m, [x, y]⟩).2.lines =
        pre ++ [⟨(processCommit st ⟨m, [x, y]⟩).2.lane, lx, cx⟩,
                ⟨(processCommit st ⟨m, [x, y]⟩).2.lane, 2,
                  (lookupSha st.shaToColor y).getD 0⟩] := by
  have hxy : x ≠ y := by
    rintro rfl
    rw [hx] at hy
    exact Option.noConfusion hy
  cases hm : lookupSha st.shaToLane m with
  | some l =>
    simp only [processCommit, occupyLane, resolveLane, hm, processFirstParent, processOtherParents,
      lookupSha_cons_self, lookupSha_cons_ne (Ne.symm hxy), hx, hy]
    exact ⟨l, _, _, by simp [lookupSha_cons_self], rfl⟩
  | none =>
    have hym : y ≠ m := by
      rintro rfl
      rw [hm] at hy
      exact Option.noConfusion hy
    by_cases hxm : x = m
    · subst hxm
      simp only [processCommit, occupyLane, resolveLane, hm, processFirstParent, processOtherParents,
        lookupSha_cons_self, lookupSha_cons_ne hym, hy]
      exact ⟨(findFreeLane st.lanes).1, _, _, by simp [lookupSha_cons_self], rfl⟩
    · simp only [processCommit, occupyLane, resolveLane, hm, processFirstParent, processOtherParents,
        lookupSha_cons_self, lookupSha_cons_ne hxm, lookupSha_cons_ne hym,
        lookupSha_cons_ne (Ne.symm hxy), hx, hy]
      exact ⟨(findFreeLane st.lanes).1, _, _, by simp [lookupSha_cons_self], rfl⟩

/-- Witness for C1 at a concrete reachable state with `Y` in lane 2. -/
theorem claim_C1_witness :
    (lookupSha c1State.shaToLane "X" = none ∧ lookupSha c1State.shaToLane "Y" = some 2) ∧
    (∃ lx cx pre,
      lookupSha ((processCommit c1State ⟨"M", ["X", "Y"]⟩).1).shaToLane "X" = some lx ∧
      (processCommit c1State ⟨"M", ["X", "Y"]⟩).2.lines =
        pre ++ [⟨(processCommit c1State ⟨"M", ["X", "Y"]⟩).2.lane, lx, cx⟩,
                ⟨(processCommit c1State ⟨"M", ["X", "Y"]⟩).2.lane, 2,
                  (lookupSha c1State.shaToColor "Y").getD 0⟩]) :=
  ⟨⟨by decide, by decide⟩,
    claim_C1_merge_convergence c1State "M" "X" "Y" (by decide) (by decide)⟩


theorem stable_refl (st : GraphState) : Stable st st := ⟨fun _ _ => id, fun _ _ => id⟩

theorem stable_trans {s1 s2 s3 : GraphState} (h1 : Stable s1 s2) (h2 : Stable s2 s3) :
    Stable s1 s3 :=
  ⟨fun s l hl => h2.1 s l (h1.1 s l hl), fun s c hc => h2.2 s c (h1.2 s c hc)⟩

theorem domInv_initial : DomInv initialState := fun _ _ => rfl

theorem domInv_cons {laneM colorM : List (String × Nat)}
    (h : ∀ s, lookupSha laneM s = none → lookupSha colorM s = none)
    (p : String) (nl nc : Nat) :
    ∀ s, lookupSha ((p, nl) :: laneM) s = none → lookupSha ((p, nc) :: colorM) s = none := by
  intro s hs
  by_cases hsp : s = p
  · subst hsp
    rw [lookupSha_cons_self] at hs
    exact Option.noConfusion hs
  · rw [lookupSha_cons_ne hsp] at hs
    rw [lookupSha_cons_ne hsp]
    exact h s hs

theorem resolveLane_domStable (st : GraphState) (sha : String) (h : DomInv st) :
    DomInv (resolveLane st sha).2.2 ∧ Stable st (resolveLane st sha).2.2 := by
  unfold resolveLane
  cases hm : lookupSha st.shaToLane sha with
  | some l => exact ⟨h, stable_refl st⟩
  | none =>
    refine ⟨domInv_cons h sha _ _, ?_, ?_⟩
    · exact fun s l hl => lookupSha_stable hm hl _
    · exact fun s c hc => lookupSha_stable (h sha hm) hc _

theorem fp_domStable (lane color : Nat) (st : GraphState) (p : String) (h : DomInv st) :
    DomInv (processFirstParent lane color st p).1 ∧ Stable st (processFirstParent lane color st p).1 := by
  unfold processFirstParent
  cases hp : lookupSha st.shaToLane p with
  | some l => exact ⟨h, stable_refl st⟩
  | none =>
    refine ⟨domInv_cons h p _ _, ?_, ?_⟩
    · exact fun s l hl => lookupSha_stable hp hl _
    · exact fun s c hc => lookupSha_stable (h p hp) hc _

theorem op_domStable (ps : List String) : ∀ (lane : Nat) (st : GraphState), DomInv st →
    DomInv (processOtherParents lane st ps).1 ∧ Stable st (processOtherParents lane st ps).1 := by
  induction ps with
  | nil => exact fun lane st h => ⟨h, stable_refl st⟩
  | cons p rest ih =>
    intro lane st h
    unfold processOtherParents
    cases hp : lookupSha st.shaToLane p with
    | some l => exact ih lane st h
    | none =>
      have hst1 : DomInv ({ st with
          lanes := setLane (findFreeLane st.lanes).2 (findFreeLane st.lanes).1 (some p),
          shaToLane := (p, (findFreeLane st.lanes).1) :: st.shaToLane,
          shaToColor := (p, paletteColor st.colorIndex) :: st.shaToColor,
          shaAssignedByParent := p :: st.shaAssignedByParent,
          colorIndex := st.colorIndex + 1,
          maxLane := max st.maxLane (findFreeLane st.lanes).1 } : GraphState) :=
        domInv_cons h p _ _
      have hstable : Stable st ({ st with
          lanes := setLane (findFreeLane st.lanes).2 (findFreeLane st.lanes).1 (some p),
          shaToLane := (p, (findFreeLane st.lanes).1) :: st.shaToLane,
          shaToColor := (p, paletteColor st.colorIndex) :: st.shaToColor,
          shaAssignedByParent := p :: st.shaAssignedByParent,
          colorIndex := st.colorIndex + 1,
          maxLane := max st.maxLane (findFreeLane st.lanes).1 } : GraphState) :=
        ⟨fun s l hl => lookupSha_stable hp hl _, fun s c hc => lookupSha_stable (h p hp) hc _⟩
      obtain ⟨hd, hs⟩ := ih lane _ hst1
      exact ⟨hd, stable_trans hstable hs⟩

theorem pc_domStable (st : GraphState) (c : CommitRecord) (h : DomInv st) :
    DomInv (processCommit st c).1 ∧ Stable st (processCommit st c).1 := by
  obtain ⟨hd1, hs1⟩ := resolveLane_domStable st c.sha h
  cases hp : c.parents with
  | nil =>
    simp only [processCommit, hp]
    exact ⟨hd1, hs1⟩
  | cons p rest =>
    simp only [processCommit, hp]
    have hd1' : DomInv (occupyLane st c.sha).2.2 := hd1
    have hs1' : Stable st (occupyLane st c.sha).2.2 := hs1
    obtain ⟨hd2, hs2⟩ := fp_domStable (occupyLane st c.sha).1
      ((lookupSha (occupyLane st c.sha).2.2.shaToColor c.sha).getD 0) _ p hd1'
    obtain ⟨hd3, hs3⟩ := op_domStable rest (occupyLane st c.sha).1 _ hd2
    exact ⟨hd3, stable_trans (stable_trans hs1' hs2) hs3⟩


theorem runFrom_domStable (cs : List CommitRecord) : ∀ st : GraphState, DomInv st →
    DomInv (runFrom st cs).1 ∧ Stable st (runFrom st cs).1 := by
  induction cs with
  | nil => exact fun st h => ⟨h, stable_refl st⟩
  | cons c rest ih =>
    intro st h
    simp only [runFrom]
    obtain ⟨hd1, hs1⟩ := pc_domStable st c h
    obtain ⟨hd2, hs2⟩ := ih _ hd1
    exact ⟨hd2, stable_trans hs1 hs2⟩

/-- C4: each identifier named as a parent keeps at most one lane and one
color for the whole pass.  From any reachable state, both assignment
maps only ever grow (first-write-wins, never overwritten); and a
first-parent or second-or-later-parent reference to an identifier that
already has a lane produces a convergence line to that existing lane
instead of a new pre-assignment. -/
theorem claim_C4_first_write_wins :
    (∀ (pre cs : List CommitRecord) (s : String) (l : Nat),
      lookupSha ((runFrom initialState pre).1).shaToLane s = some l →
      lookupSha ((runFrom (runFrom initialState pre).1 cs).1).shaToLane s = some l) ∧
    (∀ (pre cs : List CommitRecord) (s : String) (c : Nat),
      lookupSha ((runFrom initialState pre).1).shaToColor s = some c →
      lookupSha ((runFrom (runFrom initialState pre).1 cs).1).shaToColor s = some c) ∧
    (∀ (st : GraphState) (lane color : Nat) (p : String) (pl : Nat),
      lookupSha st.shaToLane p = some pl →
      processFirstParent lane color st p =
        ({ st with lanes := setLane st.lanes lane none }, ⟨lane, pl, color⟩)) ∧
    (∀ (st : GraphState) (lane : Nat) (p : String) (rest : List String) (pl : Nat),
      lookupSha st.shaToLane p = some pl →
      processOtherParents lane st (p :: rest) =
        ((processOtherParents lane st rest).1,
          ⟨lane, pl, (lookupSha st.shaToColor p).getD 0⟩ ::
            (processOtherParents lane st rest).2)) := by
  refine ⟨?_, ?_, ?_, ?_⟩
  · intro pre cs s l h
    exact (runFrom_domStable cs _ (runFrom_domStable pre initialState domInv_initial).1).2.1 s l h
  · intro pre cs s c h
    exact (runFrom_domStable cs _ (runFrom_domStable pre initialState domInv_initial).1).2.2 s c h
  · intro st lane color p pl h
    simp only [processFirstParent, h]
  · intro st lane p rest pl h
    simp only [processOtherParents, h]

theorem claim_C4_witness :
    (lookupSha ((runFrom initialState c4Pre).1).shaToLane "P" = some 0 ∧
     lookupSha ((runFrom (runFrom initialState c4Pre).1 c4Cs).1).shaToLane "P" = some 0) ∧
    (lookupSha ((runFrom initialState c4Pre).1).shaToColor "P" = some 0 ∧
     lookupSha ((runFrom (runFrom initialState c4Pre).1 c4Cs).1).shaToColor "P" = some 0) ∧
    (lookupSha c1State.shaToLane "Y" = some 2 ∧
     processOtherParents 0 c1State ["Y"] =
       (c1State, [⟨0, 2, (lookupSha c1State.shaToColor "Y").getD 0⟩])) :=
  ⟨⟨by decide, claim_C4_first_write_wins.1 c4Pre c4Cs "P" 0 (by decide)⟩,
   ⟨by decide, claim_C4_first_write_wins.2.1 c4Pre c4Cs "P" 0 (by decide)⟩,
   ⟨by decide, claim_C4_first_write_wins.2.2.2 c1State 0 "Y" [] 2 (by decide)⟩⟩

theorem setLane_oob {l : List (Option String)} {n : Nat} (h : l.length ≤ n)
    (v : Option String) : setLane l n v = l := by
  induction l generalizing n with
  | nil => rfl
  | cons x rest ih =>
    cases n with
    | zero => simp at h
    | succ n => simp [setLane, ih (Nat.le_of_succ_le_succ h)]

theorem laneInv_free {lanes : List (Option String)} {map : List (String × Nat)}
    (h : ∀ i s, getLane lanes i = some s → lookupSha map s = some i) (lane : Nat) :
    ∀ i s, getLane (setLane lanes lane none) i = some s → lookupSha map s = some i := by
  intro i s hi
  by_cases hil : i = lane
  · subst hil
    by_cases hlt : i < lanes.length
    · rw [getLane_setLane_self _ hlt] at hi
      exact Option.noConfusion hi
    · rw [setLane_oob (Nat.le_of_not_lt hlt)] at hi
      exact h i s hi
  · rw [getLane_setLane_ne _ _ hil] at hi
    exact h i s hi

theorem laneInv_occupy {lanes : List (Option String)} {map : List (String × Nat)}
    {lane : Nat} {sha : String}
    (h : ∀ i s, getLane lanes i = some s → lookupSha map s = some i)
    (hsha : lookupSha map sha = some lane) :
    ∀ i s, getLane (setLane lanes lane (some sha)) i = some s → lookupSha map s = some i := by
  intro i s hi
  by_cases hil : i = lane
  · subst hil
    by_cases hlt : i < lanes.length
    · rw [getLane_setLane_self _ hlt] at hi
      obtain rfl := (Option.some.inj hi)
      exact hsha
    · rw [setLane_oob (Nat.le_of_not_lt hlt)] at hi
      exact h i s hi
  · rw [getLane_setLane_ne _ _ hil] at hi
    exact h i s hi

theorem laneInv_mapExt {lanes : List (Option String)} {map : List (String × Nat)} {p : String}
    (h : ∀ i s, getLane lanes i = some s → lookupSha map s = some i)
    (hp : lookupSha map p = none) (v : Nat) :
    ∀ i s, getLane lanes i = some s → lookupSha ((p, v) :: map) s = some i :=
  fun i s hi => lookupSha_stable hp (h i s hi) v

theorem resolveLane_laneInv (st : GraphState) (sha : String) (h : LaneInv st) :
    LaneInv (resolveLane st sha).2.2 := by
  unfold resolveLane
  cases hm : lookupSha st.shaToLane sha with
  | some l => exact h
  | none =>
    intro i s hi
    rw [findFreeLane_getLane] at hi
    exact laneInv_mapExt h hm _ i s hi

theorem resolveLane_lookup_self (st : GraphState) (sha : String) :
    lookupSha (resolveLane st sha).2.2.shaToLane sha = some (resolveLane st sha).1 := by
  unfold resolveLane
  cases hm : lookupSha st.shaToLane sha with
  | some l => exact hm
  | none => exact lookupSha_cons_self sha _ _

theorem fp_laneInv (lane color : Nat) (st : GraphState) (p : String) (h : LaneInv st) :
    LaneInv (processFirstParent lane color st p).1 := by
  unfold processFirstParent
  cases hp : lookupSha st.shaToLane p with
  | some l => exact laneInv_free h lane
  | none =>
    exact laneInv_occupy (laneInv_mapExt h hp lane) (lookupSha_cons_self p lane _)

theorem op_laneInv (ps : List String) : ∀ (lane : Nat) (st : GraphState), LaneInv st →
    LaneInv (processOtherParents lane st ps).1 := by
  induction ps with
  | nil => exact fun lane st h => h
  | cons p rest ih =>
    intro lane st h
    unfold processOtherParents
    cases hp : lookupSha st.shaToLane p with
    | some l => exact ih lane st h
    | none =>
      refine ih lane _ ?_
      have ha : ∀ i s, getLane (findFreeLane st.lanes).2 i = some s →
          lookupSha st.shaToLane s = some i := by
        intro i s hi
        rw [findFreeLane_getLane] at hi
        exact h i s hi
      exact laneInv_occupy (laneInv_mapExt ha hp (findFreeLane st.lanes).1)
        (lookupSha_cons_self p (findFreeLane st.lanes).1 _)

theorem pc_laneInv (st : GraphState) (c : CommitRecord) (h : LaneInv st) :
    LaneInv (processCommit st c).1 := by
  have h1 := resolveLane_laneInv st c.sha h
  have hself := resolveLane_lookup_self st c.sha
  have h2 : LaneInv (occupyLane st c.sha).2.2 := laneInv_occupy h1 hself
  cases hp : c.parents with
  | nil =>
    simp only [processCommit, hp]
    exact laneInv_free h2 (occupyLane st c.sha).1
  | cons p rest =>
    simp only [processCommit, hp]
    exact op_laneInv rest _ _ (fp_laneInv _ _ _ p h2)

theorem laneInv_initial : LaneInv initialState := fun _ _ hi => Option.noConfusion hi

theorem runFrom_laneInv (cs : List CommitRecord) : ∀ st : GraphState, LaneInv st →
    LaneInv (runFrom st cs).1 := by
  induction cs with
  | nil => exact fun st h => h
  | cons c rest ih =>
    intro st h
    simp only [runFrom]
    exact ih _ (pc_laneInv st c h)

/-- C6: after processing each commit of any input (every row of the
pass), the live entries of the lane table are pairwise distinct — the
same identifier cannot occupy two lanes at once. -/
theorem claim_C6_lane_occupancy (cs : List CommitRecord) (n i j : Nat) (s : String)
    (hi : getLane ((runFrom initialState (cs.take n)).1).lanes i = some s)
    (hj : getLane ((runFrom initialState (cs.take n)).1).lanes j = some s) :
    i = j := by
  have hinv := runFrom_laneInv (cs.take n) initialState laneInv_initial
  have h1 := hinv i s hi
  have h2 := hinv j s hj
  rw [h1] at h2
  exact Option.some.inj h2

theorem claim_C6_witness :
    (getLane ((runFrom initialState (c4Pre.take 1)).1).lanes 0 = some "P" ∧
     getLane ((runFrom initialState (c4Pre.take 1)).1).lanes 0 = some "P") ∧ (0 : Nat) = 0 :=
  ⟨⟨by decide, by decide⟩, claim_C6_lane_occupancy c4Pre 1 0 0 "P" (by decide) (by decide)⟩



/-- C5: every fresh lane allocation (a new lineage head with no
pre-assigned lane, or an unseen second-or-later merge parent) picks the
lowest-indexed free slot of the lane table, and appends a new lane only
when no slot is free: `findFreeLane` has every slot below the chosen
index occupied and the chosen slot free, a fresh commit head's lane is
exactly `findFreeLane` of the current table, and an unseen merge
parent's connector targets exactly `findFreeLane` of the table at that
moment. -/
theorem claim_C5_leftmost_allocation :
    (∀ lanes : List (Option String),
      (∀ j, j < (findFreeLane lanes).1 → ∃ s, getLane lanes j = some s) ∧
      getLane lanes (findFreeLane lanes).1 = none ∧
      (findFreeLane lanes).1 ≤ lanes.length ∧
      ((findFreeLane lanes).1 < lanes.length → (findFreeLane lanes).2 = lanes) ∧
      ((findFreeLane lanes).1 = lanes.length → (findFreeLane lanes).2 = lanes ++ [none])) ∧
    (∀ (st : GraphState) (c : CommitRecord), lookupSha st.shaToLane c.sha = none →
      (processCommit st c).2.lane = (findFreeLane st.lanes).1) ∧
    (∀ (st : GraphState) (lane : Nat) (p : String) (rest : List String),
      lookupSha st.shaToLane p = none →
      ∃ ls, (processOtherParents lane st (p :: rest)).2 =
        ⟨lane, (findFreeLane st.lanes).1, paletteColor st.colorIndex⟩ :: ls) := by
  refine ⟨?_, ?_, ?_⟩
  · intro lanes
    by_cases h : freeIdx lanes < lanes.length
    · have hf : findFreeLane lanes = (freeIdx lanes, lanes) := by
        unfold findFreeLane
        rw [if_pos h]
      rw [hf]
      exact ⟨fun j hj => getLane_of_lt_freeIdx hj, getLane_freeIdx h,
        Nat.le_of_lt h, fun _ => rfl, fun he => absurd he (Nat.ne_of_lt h)⟩
    · have hf : findFreeLane lanes = (lanes.length, lanes ++ [none]) := by
        unfold findFreeLane
        rw [if_neg h]
      rw [hf]
      exact ⟨fun j hj => getLane_of_lt_freeIdx (Nat.lt_of_lt_of_le hj (Nat.le_of_not_lt h)),
        getLane_oob (Nat.le_refl _), Nat.le_refl _,
        fun hlt => absurd hlt (Nat.lt_irrefl _), fun _ => rfl⟩
  · intro st c h
    cases hp : c.parents <;>
      simp only [processCommit, occupyLane, resolveLane, h, hp]
  · intro st lane p rest h
    simp only [processOtherParents, h]
    exact ⟨_, rfl⟩

/-- Witness for C5: after lane 0 is freed at row 1 of `c5State`'s input,
the brand-new head `H` at the next row receives lane 0 (reuse, not
append) even though lane 1 is still occupied. -/
theorem claim_C5_witness :
    (lookupSha c5State.shaToLane "H" = none ∧
     getLane c5State.lanes 0 = none ∧ getLane c5State.lanes 1 = some "Q") ∧
    (processCommit c5State ⟨"H", ["Q"]⟩).2.lane = (findFreeLane c5State.lanes).1 ∧
    (findFreeLane c5State.lanes).1 = 0 :=
  ⟨⟨by decide, by decide, by decide⟩,
    claim_C5_leftmost_allocation.2.1 c5State ⟨"H", ["Q"]⟩ (by decide), by decide⟩



theorem maxOcc?_bound {l : List (Option String)} {j : Nat} {s : String}
    (h : getLane l j = some s) : ∃ m, maxOcc? l = some m ∧ j ≤ m := by
  induction l generalizing j with
  | nil => exact Option.noConfusion h
  | cons x rest ih =>
    cases j with
    | zero =>
      cases hr : maxOcc? rest with
      | some m => exact ⟨m + 1, by simp [maxOcc?, hr], Nat.zero_le _⟩
      | none =>
        refine ⟨0, ?_, Nat.le_refl 0⟩
        have hx : x = some s := h
        simp [maxOcc?, hr, hx]
    | succ j =>
      obtain ⟨m, hm, hj⟩ := ih h
      exact ⟨m + 1, by simp [maxOcc?, hm], Nat.succ_le_succ hj⟩

theorem maxOcc?_achieved {l : List (Option String)} {m : Nat}
    (h : maxOcc? l = some m) : ∃ s, getLane l m = some s := by
  induction l generalizing m with
  | nil => exact Option.noConfusion h
  | cons x rest ih =>
    cases hr : maxOcc? rest with
    | some m' =>
      rw [maxOcc?, hr] at h
      obtain rfl := Option.some.inj h
      obtain ⟨s, hs⟩ := ih hr
      exact ⟨s, hs⟩
    | none =>
      rw [maxOcc?, hr] at h
      cases hx : x with
      | some s =>
        rw [hx] at h
        simp at h
        subst h
        exact ⟨s, rfl⟩
      | none =>
        rw [hx] at h
        simp at h

theorem le_maxOccD {l : List (Option String)} {j : Nat} {s : String}
    (h : getLane l j = some s) : j ≤ maxOccD l := by
  obtain ⟨m, hm, hj⟩ := maxOcc?_bound h
  simpa [maxOccD, hm] using hj

theorem maxOccD_le {l : List (Option String)} {B : Nat}
    (h : ∀ i s, getLane l i = some s → i ≤ B) : maxOccD l ≤ B := by
  cases hm : maxOcc? l with
  | none => simp [maxOccD, hm]
  | some m =>
    obtain ⟨s, hs⟩ := maxOcc?_achieved hm
    simpa [maxOccD, hm] using h m s hs

theorem getLane_set_none_sub {lanes : List (Option String)} {lane i : Nat} {s : String}
    (h : getLane (setLane lanes lane none) i = some s) : getLane lanes i = some s := by
  by_cases hil : i = lane
  · subst hil
    by_cases hlt : i < lanes.length
    · rw [getLane_setLane_self _ hlt] at h
      exact Option.noConfusion h
    · rwa [setLane_oob (Nat.le_of_not_lt hlt)] at h
  · rwa [getLane_setLane_ne _ _ hil] at h

theorem getLane_set_some_cases {lanes : List (Option String)} {lane i : Nat} {v s : String}
    (h : getLane (setLane lanes lane (some v)) i = some s) :
    (i = lane ∧ s = v) ∨ getLane lanes i = some s := by
  by_cases hil : i = lane
  · subst hil
    by_cases hlt : i < lanes.length
    · rw [getLane_setLane_self _ hlt] at h
      exact Or.inl ⟨rfl, (Option.some.inj h).symm⟩
    · rw [setLane_oob (Nat.le_of_not_lt hlt)] at h
      exact Or.inr h
  · rw [getLane_setLane_ne _ _ hil] at h
    exact Or.inr h

theorem resolveLane_maxLane (st : GraphState) (sha : String) :
    ((resolveLane st sha).2.2).maxLane = st.maxLane := by
  unfold resolveLane
  cases lookupSha st.shaToLane sha <;> rfl

theorem resolveLane_getLane (st : GraphState) (sha : String) (i : Nat) :
    getLane ((resolveLane st sha).2.2).lanes i = getLane st.lanes i := by
  unfold resolveLane
  cases lookupSha st.shaToLane sha with
  | some l => rfl
  | none => exact findFreeLane_getLane st.lanes i

theorem occupyLane_of_some {st : GraphState} {sha : String} {l : Nat}
    (hm : lookupSha st.shaToLane sha = some l) :
    occupyLane st sha = (l, !(hasSha st.shaAssignedByParent sha),
      { st with lanes := setLane st.lanes l (some sha), maxLane := max st.maxLane l }) := by
  unfold occupyLane resolveLane
  rw [hm]

theorem occupyLane_of_none {st : GraphState} {sha : String}
    (hm : lookupSha st.shaToLane sha = none) :
    occupyLane st sha = ((findFreeLane st.lanes).1, true,
      { st with
          lanes := setLane (findFreeLane st.lanes).2 (findFreeLane st.lanes).1 (some sha),
          shaToLane := (sha, (findFreeLane st.lanes).1) :: st.shaToLane,
          shaToColor := (sha, paletteColor st.colorIndex) :: st.shaToColor,
          colorIndex := st.colorIndex + 1,
          maxLane := max st.maxLane (findFreeLane st.lanes).1 }) := by
  unfold occupyLane resolveLane
  rw [hm]

theorem occupyLane_maxLane (st : GraphState) (sha : String) :
    ((occupyLane st sha).2.2).maxLane = max st.maxLane (occupyLane st sha).1 := by
  cases hm : lookupSha st.shaToLane sha with
  | some l => rw [occupyLane_of_some hm]
  | none => rw [occupyLane_of_none hm]

theorem occupyLane_maxLane_mono (st : GraphState) (sha : String) :
    st.maxLane ≤ ((occupyLane st sha).2.2).maxLane := by
  rw [occupyLane_maxLane]
  exact Nat.le_max_left _ _

theorem occupyLane_occBound {st : GraphState} (sha : String) (h : OccBound st) :
    OccBound (occupyLane st sha).2.2 := by
  cases hm : lookupSha st.shaToLane sha with
  | some l =>
    rw [occupyLane_of_some hm]
    intro i s hg
    rcases getLane_set_some_cases hg with ⟨rfl, rfl⟩ | hold
    · exact Nat.le_max_right _ _
    · exact Nat.le_trans (h i s hold) (Nat.le_max_left _ _)
  | none =>
    rw [occupyLane_of_none hm]
    intro i s hg
    rcases getLane_set_some_cases hg with ⟨rfl, rfl⟩ | hold
    · exact Nat.le_max_right _ _
    · rw [findFreeLane_getLane] at hold
      exact Nat.le_trans (h i s hold) (Nat.le_max_left _ _)

theorem occupyLane_mapBound {st : GraphState} (sha : String) (h : MapBound st) :
    MapBound (occupyLane st sha).2.2 := by
  cases hm : lookupSha st.shaToLane sha with
  | some l =>
    rw [occupyLane_of_some hm]
    intro s v hv
    exact Nat.le_trans (h s v hv) (Nat.le_max_left _ _)
  | none =>
    rw [occupyLane_of_none hm]
    intro s v hv
    by_cases hss : s = sha
    · subst hss
      rw [lookupSha_cons_self] at hv
      obtain rfl := Option.some.inj hv
      exact Nat.le_max_right _ _
    · rw [lookupSha_cons_ne hss] at hv
      exact Nat.le_trans (h s v hv) (Nat.le_max_left _ _)


theorem fp_eq_of_some {st : GraphState} {lane color : Nat} {p : String} {pl : Nat}
    (hp : lookupSha st.shaToLane p = some pl) :
    processFirstParent lane color st p =
      ({ st with lanes := setLane st.lanes lane none }, ⟨lane, pl, color⟩) := by
  unfold processFirstParent
  rw [hp]

theorem fp_eq_of_none {st : GraphState} {lane color : Nat} {p : String}
    (hp : lookupSha st.shaToLane p = none) :
    processFirstParent lane color st p =
      ({ st with
          shaToLane := (p, lane) :: st.shaToLane,
          shaToColor := (p, color) :: st.shaToColor,
          shaAssignedByParent := p :: st.shaAssignedByParent,
          lanes := setLane st.lanes lane (some p) },
        ⟨lane, lane, color⟩) := by
  unfold processFirstParent
  rw [hp]

theorem op_eq_of_some {st : GraphState} {lane : Nat} {p : String} {rest : List String}
    {pl : Nat} (hp : lookupSha st.shaToLane p = some pl) :
    processOtherParents lane st (p :: rest) =
      ((processOtherParents lane st rest).1,
        ⟨lane, pl, (lookupSha st.shaToColor p).getD 0⟩ ::
          (processOtherParents lane st rest).2) := by
  simp only [processOtherParents, hp]

theorem op_eq_of_none {st : GraphState} {lane : Nat} {p : String} {rest : List String}
    (hp : lookupSha st.shaToLane p = none) :
    processOtherParents lane st (p :: rest) =
      ((processOtherParents lane (allocParent st p) rest).1,
        ⟨lane, (findFreeLane st.lanes).1, paletteColor st.colorIndex⟩ ::
          (processOtherParents lane (allocParent st p) rest).2) := by
  simp only [processOtherParents, hp]

theorem fp_maxLane (lane color : Nat) (st : GraphState) (p : String) :
    ((processFirstParent lane color st p).1).maxLane = st.maxLane := by
  unfold processFirstParent
  cases lookupSha st.shaToLane p <;> rfl

theorem fp_occBound {st : GraphState} {lane : Nat} (color : Nat) (p : String)
    (h : OccBound st) (hl : lane ≤ st.maxLane) :
    OccBound (processFirstParent lane color st p).1 := by
  cases hp : lookupSha st.shaToLane p with
  | some pl =>
    rw [fp_eq_of_some hp]
    intro i s hg
    exact h i s (getLane_set_none_sub hg)
  | none =>
    rw [fp_eq_of_none hp]
    intro i s hg
    rcases getLane_set_some_cases hg with ⟨rfl, rfl⟩ | hold
    · exact hl
    · exact h i s hold

theorem fp_mapBound {st : GraphState} {lane : Nat} (color : Nat) (p : String)
    (h : MapBound st) (hl : lane ≤ st.maxLane) :
    MapBound (processFirstParent lane color st p).1 := by
  cases hp : lookupSha st.shaToLane p with
  | some pl =>
    rw [fp_eq_of_some hp]
    exact h
  | none =>
    rw [fp_eq_of_none hp]
    intro s v hv
    by_cases hsp : s = p
    · subst hsp
      rw [lookupSha_cons_self] at hv
      obtain rfl := Option.some.inj hv
      exact hl
    · rw [lookupSha_cons_ne hsp] at hv
      exact h s v hv

theorem fp_line_bound {st : GraphState} {lane : Nat} (color : Nat) (p : String)
    (h : MapBound st) (hl : lane ≤ st.maxLane) :
    ((processFirstParent lane color st p).2).fromLane ≤ st.maxLane ∧
    ((processFirstParent lane color st p).2).toLane ≤ st.maxLane := by
  cases hp : lookupSha st.shaToLane p with
  | some pl =>
    rw [fp_eq_of_some hp]
    exact ⟨hl, h p pl hp⟩
  | none =>
    rw [fp_eq_of_none hp]
    exact ⟨hl, hl⟩

theorem allocParent_maxLane_mono (st : GraphState) (p : String) :
    st.maxLane ≤ (allocParent st p).maxLane :=
  Nat.le_max_left _ _

theorem allocParent_occBound {st : GraphState} (p : String) (h : OccBound st) :
    OccBound (allocParent st p) := by
  intro i s hg
  rcases getLane_set_some_cases hg with ⟨rfl, rfl⟩ | hold
  · exact Nat.le_max_right _ _
  · rw [findFreeLane_getLane] at hold
    exact Nat.le_trans (h i s hold) (Nat.le_max_left _ _)

theorem allocParent_mapBound {st : GraphState} (p : String) (h : MapBound st) :
    MapBound (allocParent st p) := by
  intro s v hv
  have hv' : lookupSha ((p, (findFreeLane st.lanes).1) :: st.shaToLane) s = some v := hv
  by_cases hsp : s = p
  · subst hsp
    rw [lookupSha_cons_self] at hv'
    obtain rfl := Option.some.inj hv'
    exact Nat.le_max_right _ _
  · rw [lookupSha_cons_ne hsp] at hv'
    exact Nat.le_trans (h s v hv') (Nat.le_max_left _ _)

theorem allocParent_persist {st : GraphState} (p : String) {i : Nat} {s : String}
    (hg : getLane st.lanes i = some s) : getLane (allocParent st p).lanes i = some s := by
  by_cases hil : i = (findFreeLane st.lanes).1
  · subst hil
    rw [findFreeLane_free st.lanes] at hg
    exact Option.noConfusion hg
  · show getLane (setLane (findFreeLane st.lanes).2 (findFreeLane st.lanes).1 (some p)) i = some s
    rw [getLane_setLane_ne _ _ hil, findFreeLane_getLane]
    exact hg

theorem allocParent_self {st : GraphState} (p : String) :
    getLane (allocParent st p).lanes (findFreeLane st.lanes).1 = some p := by
  show getLane (setLane (findFreeLane st.lanes).2 (findFreeLane st.lanes).1 (some p)) _ = some p
  exact getLane_setLane_self _ (findFreeLane_lt st.lanes)

theorem op_maxLane_mono (ps : List String) : ∀ (lane : Nat) (st : GraphState),
    st.maxLane ≤ ((processOtherParents lane st ps).1).maxLane := by
  induction ps with
  | nil => exact fun lane st => Nat.le_refl _
  | cons p rest ih =>
    intro lane st
    cases hp : lookupSha st.shaToLane p with
    | some pl =>
      rw [op_eq_of_some hp]
      exact ih lane st
    | none =>
      rw [op_eq_of_none hp]
      exact Nat.le_trans (allocParent_maxLane_mono st p) (ih lane (allocParent st p))

theorem op_persist (ps : List String) : ∀ (lane : Nat) (st : GraphState) (i : Nat) (s : String),
    getLane st.lanes i = some s →
    getLane ((processOtherParents lane st ps).1).lanes i = some s := by
  induction ps with
  | nil => exact fun lane st i s h => h
  | cons p rest ih =>
    intro lane st i s h
    cases hp : lookupSha st.shaToLane p with
    | some pl =>
      rw [op_eq_of_some hp]
      exact ih lane st i s h
    | none =>
      rw [op_eq_of_none hp]
      exact ih lane (allocParent st p) i s (allocParent_persist p h)

theorem op_occBound (ps : List String) : ∀ (lane : Nat) (st : GraphState),
    OccBound st → OccBound (processOtherParents lane st ps).1 := by
  induction ps with
  | nil => exact fun lane st h => h
  | cons p rest ih =>
    intro lane st h
    cases hp : lookupSha st.shaToLane p with
    | some pl =>
      rw [op_eq_of_some hp]
      exact ih lane st h
    | none =>
      rw [op_eq_of_none hp]
      exact ih lane (allocParent st p) (allocParent_occBound p h)

theorem op_mapBound (ps : List String) : ∀ (lane : Nat) (st : GraphState),
    MapBound st → MapBound (processOtherParents lane st ps).1 := by
  induction ps with
  | nil => exact fun lane st h => h
  | cons p rest ih =>
    intro lane st h
    cases hp : lookupSha st.shaToLane p with
    | some pl =>
      rw [op_eq_of_some hp]
      exact ih lane st h
    | none =>
      rw [op_eq_of_none hp]
      exact ih lane (allocParent st p) (allocParent_mapBound p h)

theorem op_maxLane_le (ps : List String) : ∀ (lane : Nat) (st : GraphState),
    ((processOtherParents lane st ps).1).maxLane ≤
      max st.maxLane (maxOccD ((processOtherParents lane st ps).1).lanes) := by
  induction ps with
  | nil => exact fun lane st => Nat.le_max_left _ _
  | cons p rest ih =>
    intro lane st
    cases hp : lookupSha st.shaToLane p with
    | some pl =>
      rw [op_eq_of_some hp]
      exact ih lane st
    | none =>
      have heq : (processOtherParents lane st (p :: rest)).1 =
          (processOtherParents lane (allocParent st p) rest).1 := by
        rw [op_eq_of_none hp]
      rw [heq]
      have h1 := ih lane (allocParent st p)
      have h2 : (findFreeLane st.lanes).1 ≤
          maxOccD ((processOtherParents lane (allocParent st p) rest).1).lanes :=
        le_maxOccD (op_persist rest lane (allocParent st p) _ p (allocParent_self p))
      have h3 : (allocParent st p).maxLane = max st.maxLane (findFreeLane st.lanes).1 := rfl
      omega

theorem op_lines_bound (ps : List String) : ∀ (lane : Nat) (st : GraphState),
    MapBound st → lane ≤ st.maxLane →
    ∀ gl ∈ (processOtherParents lane st ps).2,
      gl.fromLane ≤ ((processOtherParents lane st ps).1).maxLane ∧
      gl.toLane ≤ ((processOtherParents lane st ps).1).maxLane := by
  induction ps with
  | nil => exact fun lane st _ _ gl hgl => absurd hgl (List.not_mem_nil gl)
  | cons p rest ih =>
    intro lane st hmap hl gl hgl
    cases hp : lookupSha st.shaToLane p with
    | some pl =>
      rw [op_eq_of_some hp] at hgl ⊢
      rcases List.mem_cons.1 hgl with rfl | hgl'
      · exact ⟨Nat.le_trans hl (op_maxLane_mono rest lane st),
          Nat.le_trans (hmap p pl hp) (op_maxLane_mono rest lane st)⟩
      · exact ih lane st hmap hl gl hgl'
    | none =>
      rw [op_eq_of_none hp] at hgl ⊢
      have hmono := op_maxLane_mono rest lane (allocParent st p)
      have hl1 : lane ≤ (allocParent st p).maxLane :=
        Nat.le_trans hl (allocParent_maxLane_mono st p)
      rcases List.mem_cons.1 hgl with rfl | hgl'
      · exact ⟨Nat.le_trans hl1 hmono,
          Nat.le_trans (Nat.le_max_right st.maxLane (findFreeLane st.lanes).1) hmono⟩
      · exact ih lane (allocParent st p) (allocParent_mapBound p hmap) hl1 gl hgl'


theorem occupyLane_lane_le (st : GraphState) (sha : String) :
    (occupyLane st sha).1 ≤ ((occupyLane st sha).2.2).maxLane := by
  rw [occupyLane_maxLane]
  exact Nat.le_max_right _ _

theorem pc_fst_nil {st : GraphState} {c : CommitRecord} (hp : c.parents = []) :
    (processCommit st c).1 = { (occupyLane st c.sha).2.2 with
      lanes := setLane ((occupyLane st c.sha).2.2).lanes (occupyLane st c.sha).1 none } := by
  simp only [processCommit, hp]

theorem pc_fst_cons {st : GraphState} {c : CommitRecord} {p : String} {rest : List String}
    (hp : c.parents = p :: rest) :
    (processCommit st c).1 = (processOtherParents (occupyLane st c.sha).1
      (processFirstParent (occupyLane st c.sha).1
        ((lookupSha ((occupyLane st c.sha).2.2).shaToColor c.sha).getD 0)
        (occupyLane st c.sha).2.2 p).1 rest).1 := by
  simp only [processCommit, hp]

theorem pc_node_lane (st : GraphState) (c : CommitRecord) :
    (processCommit st c).2.lane = (occupyLane st c.sha).1 := by
  cases hp : c.parents <;> simp only [processCommit, hp]

theorem pc_node_lines_nil {st : GraphState} {c : CommitRecord} (hp : c.parents = []) :
    (processCommit st c).2.lines = passLines ((occupyLane st c.sha).2.2).lanes
      ((occupyLane st c.sha).2.2).shaToColor (occupyLane st c.sha).1 := by
  simp only [processCommit, hp]

theorem pc_node_lines_cons {st : GraphState} {c : CommitRecord} {p : String}
    {rest : List String} (hp : c.parents = p :: rest) :
    (processCommit st c).2.lines = passLines ((occupyLane st c.sha).2.2).lanes
        ((occupyLane st c.sha).2.2).shaToColor (occupyLane st c.sha).1 ++
      (processFirstParent (occupyLane st c.sha).1
        ((lookupSha ((occupyLane st c.sha).2.2).shaToColor c.sha).getD 0)
        (occupyLane st c.sha).2.2 p).2 ::
      (processOtherParents (occupyLane st c.sha).1
        (processFirstParent (occupyLane st c.sha).1
          ((lookupSha ((occupyLane st c.sha).2.2).shaToColor c.sha).getD 0)
          (occupyLane st c.sha).2.2 p).1 rest).2 := by
  simp only [processCommit, hp]

theorem pc_maxLane_mono (st : GraphState) (c : CommitRecord) :
    st.maxLane ≤ ((processCommit st c).1).maxLane := by
  cases hp : c.parents with
  | nil =>
    rw [pc_fst_nil hp]
    exact occupyLane_maxLane_mono st c.sha
  | cons p rest =>
    rw [pc_fst_cons hp]
    refine Nat.le_trans (occupyLane_maxLane_mono st c.sha) ?_
    refine Nat.le_trans (Nat.le_of_eq (fp_maxLane (occupyLane st c.sha).1
      ((lookupSha ((occupyLane st c.sha).2.2).shaToColor c.sha).getD 0)
      (occupyLane st c.sha).2.2 p).symm) ?_
    exact op_maxLane_mono rest _ _

theorem pc_occBound {st : GraphState} (c : CommitRecord) (h : OccBound st) :
    OccBound (processCommit st c).1 := by
  cases hp : c.parents with
  | nil =>
    rw [pc_fst_nil hp]
    intro i s hg
    exact occupyLane_occBound c.sha h i s (getLane_set_none_sub hg)
  | cons p rest =>
    rw [pc_fst_cons hp]
    exact op_occBound rest _ _
      (fp_occBound _ p (occupyLane_occBound c.sha h) (occupyLane_lane_le st c.sha))

theorem pc_mapBound {st : GraphState} (c : CommitRecord) (h : MapBound st) :
    MapBound (processCommit st c).1 := by
  cases hp : c.parents with
  | nil =>
    rw [pc_fst_nil hp]
    exact occupyLane_mapBound c.sha h
  | cons p rest =>
    rw [pc_fst_cons hp]
    exact op_mapBound rest _ _
      (fp_mapBound _ p (occupyLane_mapBound c.sha h) (occupyLane_lane_le st c.sha))

theorem pc_lane_le (st : GraphState) (c : CommitRecord) :
    (processCommit st c).2.lane ≤ ((processCommit st c).1).maxLane := by
  rw [pc_node_lane]
  cases hp : c.parents with
  | nil =>
    rw [pc_fst_nil hp]
    exact occupyLane_lane_le st c.sha
  | cons p rest =>
    rw [pc_fst_cons hp]
    refine Nat.le_trans (occupyLane_lane_le st c.sha) ?_
    refine Nat.le_trans (Nat.le_of_eq (fp_maxLane (occupyLane st c.sha).1
      ((lookupSha ((occupyLane st c.sha).2.2).shaToColor c.sha).getD 0)
      (occupyLane st c.sha).2.2 p).symm) ?_
    exact op_maxLane_mono rest _ _

theorem passLinesAux_mem (colors : List (String × Nat)) (lane : Nat) :
    ∀ (l : List (Option String)) (i0 : Nat) (gl : GraphLine),
      gl ∈ passLinesAux colors lane l i0 →
      ∃ k s, getLane l k = some s ∧ gl.fromLane = i0 + k ∧ gl.toLane = i0 + k := by
  intro l
  induction l with
  | nil => exact fun i0 gl hgl => absurd hgl (List.not_mem_nil gl)
  | cons x rest ih =>
    intro i0 gl hgl
    cases x with
    | none =>
      obtain ⟨k, s, hk, hf, ht⟩ := ih (i0 + 1) gl hgl
      exact ⟨k + 1, s, hk, by omega, by omega⟩
    | some owner =>
      rw [passLinesAux] at hgl
      by_cases hil : i0 = lane
      · rw [if_pos hil] at hgl
        obtain ⟨k, s, hk, hf, ht⟩ := ih (i0 + 1) gl hgl
        exact ⟨k + 1, s, hk, by omega, by omega⟩
      · rw [if_neg hil] at hgl
        rcases List.mem_cons.1 hgl with rfl | hgl'
        · exact ⟨0, owner, rfl, (Nat.add_zero i0).symm, (Nat.add_zero i0).symm⟩
        · obtain ⟨k, s, hk, hf, ht⟩ := ih (i0 + 1) gl hgl'
          exact ⟨k + 1, s, hk, by omega, by omega⟩

theorem pc_lines_bound {st : GraphState} (c : CommitRecord)
    (ho : OccBound st) (hm : MapBound st) :
    ∀ gl ∈ (processCommit st c).2.lines,
      gl.fromLane ≤ ((processCommit st c).1).maxLane ∧
      gl.toLane ≤ ((processCommit st c).1).maxLane := by
  have ho2 := occupyLane_occBound c.sha ho
  have hm2 := occupyLane_mapBound c.sha hm
  have hll := occupyLane_lane_le st c.sha
  cases hp : c.parents with
  | nil =>
    rw [pc_node_lines_nil hp, pc_fst_nil hp]
    intro gl hgl
    obtain ⟨k, s, hk, hf, ht⟩ := passLinesAux_mem _ _ _ 0 gl hgl
    have hb := ho2 k s hk
    constructor
    · show gl.fromLane ≤ ((occupyLane st c.sha).2.2).maxLane
      omega
    · show gl.toLane ≤ ((occupyLane st c.sha).2.2).maxLane
      omega
  | cons p rest =>
    rw [pc_node_lines_cons hp, pc_fst_cons hp]
    intro gl hgl
    have hfpml : ((processFirstParent (occupyLane st c.sha).1
        ((lookupSha ((occupyLane st c.sha).2.2).shaToColor c.sha).getD 0)
        (occupyLane st c.sha).2.2 p).1).maxLane = ((occupyLane st c.sha).2.2).maxLane :=
      fp_maxLane _ _ _ _
    have hopmono := op_maxLane_mono rest (occupyLane st c.sha).1
      (processFirstParent (occupyLane st c.sha).1
        ((lookupSha ((occupyLane st c.sha).2.2).shaToColor c.sha).getD 0)
        (occupyLane st c.sha).2.2 p).1
    rcases List.mem_append.1 hgl with hpass | hrest
    · obtain ⟨k, s, hk, hf, ht⟩ := passLinesAux_mem _ _ _ 0 gl hpass
      have hb := ho2 k s hk
      constructor <;> omega
    · rcases List.mem_cons.1 hrest with rfl | hop
      · have := fp_line_bound ((lookupSha ((occupyLane st c.sha).2.2).shaToColor c.sha).getD 0)
          p hm2 hll
        constructor <;> omega
      · have := op_lines_bound rest (occupyLane st c.sha).1 _
          (fp_mapBound _ p hm2 hll) (by omega) gl hop
        exact this

theorem pc_maxLane_eq {st : GraphState} (c : CommitRecord) (h : OccBound st) :
    ((processCommit st c).1).maxLane =
      max st.maxLane (max ((processCommit st c).2.lane)
        (maxOccD ((processCommit st c).1).lanes)) := by
  have hE := occupyLane_maxLane st c.sha
  have ho2 := occupyLane_occBound c.sha h
  rw [pc_node_lane]
  cases hp : c.parents with
  | nil =>
    rw [pc_fst_nil hp]
    have hM : maxOccD (setLane ((occupyLane st c.sha).2.2).lanes (occupyLane st c.sha).1 none) ≤
        ((occupyLane st c.sha).2.2).maxLane :=
      maxOccD_le (fun i s hg => ho2 i s (getLane_set_none_sub hg))
    show ((occupyLane st c.sha).2.2).maxLane = max st.maxLane (max (occupyLane st c.sha).1
      (maxOccD (setLane ((occupyLane st c.sha).2.2).lanes (occupyLane st c.sha).1 none)))
    omega
  | cons p rest =>
    rw [pc_fst_cons hp]
    have hfpml : ((processFirstParent (occupyLane st c.sha).1
        ((lookupSha ((occupyLane st c.sha).2.2).shaToColor c.sha).getD 0)
        (occupyLane st c.sha).2.2 p).1).maxLane = ((occupyLane st c.sha).2.2).maxLane :=
      fp_maxLane _ _ _ _
    have hople := op_maxLane_le rest (occupyLane st c.sha).1
      (processFirstParent (occupyLane st c.sha).1
        ((lookupSha ((occupyLane st c.sha).2.2).shaToColor c.sha).getD 0)
        (occupyLane st c.sha).2.2 p).1
    have hopmono := op_maxLane_mono rest (occupyLane st c.sha).1
      (processFirstParent (occupyLane st c.sha).1
        ((lookupSha ((occupyLane st c.sha).2.2).shaToColor c.sha).getD 0)
        (occupyLane st c.sha).2.2 p).1
    have hopocc : maxOccD (((processOtherParents (occupyLane st c.sha).1
        (processFirstParent (occupyLane st c.sha).1
          ((lookupSha ((occupyLane st c.sha).2.2).shaToColor c.sha).getD 0)
          (occupyLane st c.sha).2.2 p).1 rest).1).lanes) ≤
        ((processOtherParents (occupyLane st c.sha).1
          (processFirstParent (occupyLane st c.sha).1
            ((lookupSha ((occupyLane st c.sha).2.2).shaToColor c.sha).getD 0)
            (occupyLane st c.sha).2.2 p).1 rest).1).maxLane :=
      maxOccD_le (op_occBound rest _ _
        (fp_occBound _ p ho2 (occupyLane_lane_le st c.sha)))
    have hll := occupyLane_lane_le st c.sha
    omega


theorem occBound_initial : OccBound initialState := fun _ _ h => Option.noConfusion h

theorem mapBound_initial : MapBound initialState := fun _ _ h => Option.noConfusion h

theorem runFrom_maxLane_mono (cs : List CommitRecord) : ∀ st : GraphState,
    st.maxLane ≤ ((runFrom st cs).1).maxLane := by
  induction cs with
  | nil => exact fun st => Nat.le_refl _
  | cons c rest ih =>
    intro st
    simp only [runFrom]
    exact Nat.le_trans (pc_maxLane_mono st c) (ih (processCommit st c).1)

theorem runFrom_bound (cs : List CommitRecord) : ∀ st : GraphState, OccBound st → MapBound st →
    ∀ node ∈ (runFrom st cs).2,
      node.lane ≤ ((runFrom st cs).1).maxLane ∧
      ∀ gl ∈ node.lines, gl.fromLane ≤ ((runFrom st cs).1).maxLane ∧
        gl.toLane ≤ ((runFrom st cs).1).maxLane := by
  induction cs with
  | nil => exact fun st _ _ node hn => absurd hn (List.not_mem_nil node)
  | cons c rest ih =>
    intro st ho hm node hn
    simp only [runFrom] at hn ⊢
    have hmono := runFrom_maxLane_mono rest (processCommit st c).1
    rcases List.mem_cons.1 hn with rfl | hn'
    · refine ⟨Nat.le_trans (pc_lane_le st c) hmono, fun gl hgl => ?_⟩
      have hb := pc_lines_bound c ho hm gl hgl
      exact ⟨Nat.le_trans hb.1 hmono, Nat.le_trans hb.2 hmono⟩
    · exact ih (processCommit st c).1 (pc_occBound c ho) (pc_mapBound c hm) node hn'

/-- C10: every lane index in the output — each node's `lane` and both
endpoints of every emitted line — is at most the returned `maxLane`, so
a renderer sizing its canvas by `maxLane` never clips a node or a line. -/
theorem claim_C10_output_within_maxLane (cs : List CommitRecord) (node : GraphNode)
    (hn : node ∈ (computeGraph cs).commits) :
    node.lane ≤ (computeGraph cs).maxLane ∧
    ∀ gl ∈ node.lines, gl.fromLane ≤ (computeGraph cs).maxLane ∧
      gl.toLane ≤ (computeGraph cs).maxLane :=
  runFrom_bound cs initialState occBound_initial mapBound_initial node hn

/-- Witness for C10 at the first node of the chain input. -/
theorem claim_C10_witness :
    ((⟨0, 0, true, [⟨0, 0, 0⟩]⟩ : GraphNode) ∈ (computeGraph chainABCD).commits) ∧
    ((⟨0, 0, true, [⟨0, 0, 0⟩]⟩ : GraphNode).lane ≤ (computeGraph chainABCD).maxLane ∧
     ∀ gl ∈ (⟨0, 0, true, [⟨0, 0, 0⟩]⟩ : GraphNode).lines,
       gl.fromLane ≤ (computeGraph chainABCD).maxLane ∧
       gl.toLane ≤ (computeGraph chainABCD).maxLane) :=
  ⟨by decide,
    claim_C10_output_within_maxLane chainABCD ⟨0, 0, true, [⟨0, 0, 0⟩]⟩ (by decide)⟩

theorem runFrom_maxLane_ever (cs : List CommitRecord) : ∀ st : GraphState, OccBound st →
    ((runFrom st cs).1).maxLane = max st.maxLane (everMaxFrom st cs) := by
  induction cs with
  | nil =>
    intro st _
    show st.maxLane = max st.maxLane 0
    omega
  | cons c rest ih =>
    intro st ho
    simp only [runFrom, everMaxFrom]
    have h1 := ih (processCommit st c).1 (pc_occBound c ho)
    have h2 := pc_maxLane_eq c ho
    omega

/-- C7: the `maxLane` returned by the layout equals the highest lane
index ever marked occupied during the pass — per row, the commit's own
occupied lane (counted even when immediately freed again by a root or a
convergence) together with every index still occupied after the row,
which covers lanes allocated for pre-assigned merge parents. -/
theorem claim_C7_maxLane_highest_ever (cs : List CommitRecord) :
    (computeGraph cs).maxLane = everMaxFrom initialState cs := by
  have h := runFrom_maxLane_ever cs initialState occBound_initial
  have h0 : initialState.maxLane = 0 := rfl
  show ((runFrom initialState cs).1).maxLane = _
  omega


end GitViewer
